import Mathlib

/-!
Shallow embedding of the micrograd-rust autograd engine
(`src/engine/src/value.rs`, `src/engine/src/lib.rs`).

The Rust code stores scalar nodes behind `Rc<RefCell<ValueData>>` handles;
node identity is the `Rc` pointer.  We embed the heap as a `List ValueData`
(the arena), a node handle as its index (`Nat`), and every operation that
mutates the heap as a function `List ValueData → ... → List ValueData`.
`f64` is embedded as `ℚ`; the primitive `f64::powf` (whose value on
non-integer exponents is not expressible exactly) is threaded through as an
explicit parameter `powf : ℚ → ℚ → ℚ`, which no claim needs to evaluate.
-/

namespace Micrograd

/-- `enum Op` from value.rs: the four differentiable primitives.
`Pow` carries its `f64` exponent. -/
inductive Op where
  | add : Op
  | mul : Op
  | pow : ℚ → Op
  | relu : Op
deriving DecidableEq, Repr

/-- `Op::backward(&self, out_grad, inputs)` from value.rs lines 14–34:
given the upstream gradient and the operand values (the Rust code reads
`inputs[i].data`, so we pass the data values), produce the local gradients
to push onto the operands, in operand order. -/
def Op.backward (powf : ℚ → ℚ → ℚ) : Op → ℚ → List ℚ → List ℚ
  | Op.add, outGrad, _ => [outGrad, outGrad]
  | Op.mul, outGrad, inputs =>
      let left := inputs.getD 0 0
      let right := inputs.getD 1 0
      [outGrad * right, outGrad * left]
  | Op.pow exponent, outGrad, inputs =>
      let base := inputs.getD 0 0
      [outGrad * exponent * powf base (exponent - 1)]
  | Op.relu, outGrad, inputs =>
      let inputData := inputs.getD 0 0
      [if 0 < inputData then outGrad else 0]

/-- `struct ValueData` from value.rs: forward value, accumulated gradient,
and provenance (`_op`, `_prev`).  Operand handles are arena indices. -/
structure ValueData where
  data : ℚ
  grad : ℚ
  op : Option Op
  prev : Option (List Nat)
deriving DecidableEq, Repr

/-- The node a dangling index reads as (never reachable through the API:
every Rust `Value` handle points at a real allocation). -/
def defaultNode : ValueData := ⟨0, 0, none, none⟩

/-- Read node `n` of the arena. -/
def getNode (s : List ValueData) (n : Nat) : ValueData :=
  s.getD n defaultNode

/-- Replace node `n` of the arena by `f` of it (a `RefCell::borrow_mut`
write); out-of-range indices leave the arena unchanged. -/
def modifyNode : List ValueData → Nat → (ValueData → ValueData) → List ValueData
  | [], _, _ => []
  | v :: rest, 0, f => f v :: rest
  | v :: rest, n + 1, f => v :: modifyNode rest n f

/-- The operand list of node `n` (`_prev`), `[]` for a leaf. -/
def prevIds (s : List ValueData) (n : Nat) : List Nat :=
  (getNode s n).prev.getD []

/-- Arena well-formedness: operands are created strictly before the node
that references them, so operand indices are strictly smaller.  Every arena
built through the graph-builder API satisfies this (each combinator appends
the derived node after its operands exist). -/
def WF (s : List ValueData) : Prop :=
  ∀ n, n < s.length → ∀ p ∈ prevIds s n, p < n

namespace Value

/-- `Value::new(data)`: append a fresh leaf node, return its index. -/
def new (s : List ValueData) (d : ℚ) : List ValueData × Nat :=
  (s ++ [⟨d, 0, none, none⟩], s.length)

/-- `impl Add for Value` (value.rs lines 147–156). -/
def add (s : List ValueData) (a b : Nat) : List ValueData × Nat :=
  (s ++ [⟨(getNode s a).data + (getNode s b).data, 0, some Op.add, some [a, b]⟩],
   s.length)

/-- `impl Mul for Value` (value.rs lines 174–183). -/
def mul (s : List ValueData) (a b : Nat) : List ValueData × Nat :=
  (s ++ [⟨(getNode s a).data * (getNode s b).data, 0, some Op.mul, some [a, b]⟩],
   s.length)

/-- `Value::pow(self, exponent)` (value.rs lines 60–65). -/
def pow (powf : ℚ → ℚ → ℚ) (s : List ValueData) (a : Nat) (exponent : ℚ) :
    List ValueData × Nat :=
  (s ++ [⟨powf (getNode s a).data exponent, 0, some (Op.pow exponent), some [a]⟩],
   s.length)

/-- `Value::relu(self)` (value.rs lines 67–72): forward value is
`self.data.max(0.0)`. -/
def relu (s : List ValueData) (a : Nat) : List ValueData × Nat :=
  (s ++ [⟨max (getNode s a).data 0, 0, some Op.relu, some [a]⟩], s.length)

/-- `impl Add<f64> for Value`: `self + Value::new(other)`. -/
def addScalar (s : List ValueData) (a : Nat) (c : ℚ) : List ValueData × Nat :=
  let (s1, leaf) := new s c
  add s1 a leaf

/-- `impl Mul<f64> for Value`: `self * Value::new(other)`. -/
def mulScalar (s : List ValueData) (a : Nat) (c : ℚ) : List ValueData × Nat :=
  let (s1, leaf) := new s c
  mul s1 a leaf

/-- `impl Sub for Value` (value.rs lines 201–207): `self + (other * -1.0)`. -/
def sub (s : List ValueData) (a b : Nat) : List ValueData × Nat :=
  let (s1, m) := mulScalar s b (-1)
  add s1 a m

/-- `Value::build_topo` (value.rs lines 74–85), fuel-indexed.  The Rust
recursion terminates because operands have strictly smaller indices (`WF`);
fuel strictly larger than the node index is enough, and `backward` passes
the arena size.  State is `(visited, topo)`. -/
def buildTopoAux (s : List ValueData) :
    Nat → Nat → List Nat × List Nat → List Nat × List Nat
  | 0, _, st => st
  | fuel + 1, n, (visited, topo) =>
      if n ∈ visited then (visited, topo)
      else
        let st2 := (prevIds s n).foldl
          (fun st p => buildTopoAux s fuel p st) (n :: visited, topo)
        (st2.1, st2.2 ++ [n])

/-- Overwrite the gradient of node `n` (the seed `grad = 1.0`). -/
def setGrad (s : List ValueData) (n : Nat) (g : ℚ) : List ValueData :=
  modifyNode s n (fun vd => { vd with grad := g })

/-- `parent.data.borrow_mut().grad += *grad` from the reverse sweep. -/
def addGrad (s : List ValueData) (n : Nat) (g : ℚ) : List ValueData :=
  modifyNode s n (fun vd => { vd with grad := vd.grad + g })

/-- The body of the reverse sweep loop (value.rs lines 94–104) for one
node: if it has an operation and operands, read its current gradient,
compute the local gradients, and add each onto its operand. -/
def backStep (powf : ℚ → ℚ → ℚ) (s : List ValueData) (n : Nat) :
    List ValueData :=
  match (getNode s n).op, (getNode s n).prev with
  | some op, some parents =>
      let outGrad := (getNode s n).grad
      let inputGrads :=
        Op.backward powf op outGrad (parents.map (fun p => (getNode s p).data))
      (parents.zip inputGrads).foldl (fun st pg => addGrad st pg.1 pg.2) s
  | _, _ => s

/-- `Value::backward(&self)` (value.rs lines 87–105): seed the root's
gradient to 1.0 (overwriting), build the topological order, reverse it,
and run the sweep. -/
def backward (powf : ℚ → ℚ → ℚ) (s : List ValueData) (root : Nat) :
    List ValueData :=
  let s1 := setGrad s root 1
  let topo := (buildTopoAux s1 s1.length root ([], [])).2
  topo.reverse.foldl (backStep powf) s1

/-- `Value::set_data(&self, val)` (value.rs lines 126–128). -/
def setData (s : List ValueData) (n : Nat) (v : ℚ) : List ValueData :=
  modifyNode s n (fun vd => { vd with data := v })

/-- `Value::update(&self, learning_rate)` (value.rs lines 130–134). -/
def update (s : List ValueData) (n : Nat) (learningRate : ℚ) :
    List ValueData :=
  setData s n ((getNode s n).data - learningRate * (getNode s n).grad)

/-- `Value::zero_grad(&self)` (value.rs lines 136–138). -/
def zeroGrad (s : List ValueData) (n : Nat) : List ValueData :=
  setGrad s n 0

end Value

/-- `Reaches s a b`: node `b` is reachable from node `a` through operand
chains (`a` itself included). -/
inductive Reaches (s : List ValueData) : Nat → Nat → Prop where
  | refl (n : Nat) : Reaches s n n
  | head {n p m : Nat} : p ∈ prevIds s n → Reaches s p m → Reaches s n m

/-- `struct Neuron` from lib.rs: weight handles, bias handle, activation
flag (`true` for ReLU, `false` for linear). -/
structure Neuron where
  weights : List Nat
  bias : Nat
  activation : Bool
deriving DecidableEq, Repr

/-- `struct Layer` from lib.rs. -/
structure Layer where
  neurons : List Neuron
deriving DecidableEq, Repr

/-- `struct MLP` from lib.rs. -/
structure MLP where
  layers : List Layer
deriving DecidableEq, Repr

/-- The weight-allocating loop of `Neuron::new` (lib.rs lines 13–16):
`rng k` is the value of the `k`-th call of `rand::random::<f64>()`, `ctr`
the number of calls made so far.  Each weight leaf holds
`rand::random() * 2.0 - 1.0`. -/
def Neuron.newWeights (rng : Nat → ℚ) :
    Nat → Nat → List ValueData → List ValueData × List Nat × Nat
  | 0, ctr, s => (s, [], ctr)
  | k + 1, ctr, s =>
      let (s2, w) := Value.new s (rng ctr * 2 - 1)
      let (s3, ws, ctr2) := Neuron.newWeights rng k (ctr + 1) s2
      (s3, w :: ws, ctr2)

/-- `Neuron::new(nin, activation)` (lib.rs lines 12–19): `nin` random
weights, bias leaf initialised to 0. -/
def Neuron.new (rng : Nat → ℚ) (ctr : Nat) (s : List ValueData) (nin : Nat)
    (activation : Bool) : Nat × List ValueData × Neuron :=
  let (s2, ws, ctr2) := Neuron.newWeights rng nin ctr s
  let (s3, b) := Value.new s2 0
  (ctr2, s3, ⟨ws, b, activation⟩)

/-- The affine part of `Neuron::forward` (lib.rs lines 22–25):
`act = bias; for (wi, xi) in weights.zip(x) { act = act + wi * xi }`.
Note the Rust `zip` silently truncates to the shorter sequence. -/
def Neuron.affine (s : List ValueData) (n : Neuron) (x : List Nat) :
    List ValueData × Nat :=
  (n.weights.zip x).foldl
    (fun acc wx =>
      let (st2, prod) := Value.mul acc.1 wx.1 wx.2
      Value.add st2 acc.2 prod)
    (s, n.bias)

/-- `Neuron::forward(&self, x)` (lib.rs lines 21–31). -/
def Neuron.forward (s : List ValueData) (n : Neuron) (x : List Nat) :
    List ValueData × Nat :=
  let (s1, act) := Neuron.affine s n x
  if n.activation then Value.relu s1 act else (s1, act)

/-- The neuron-allocating loop of `Layer::new` (lib.rs lines 52–58). -/
def Layer.newAux (rng : Nat → ℚ) :
    Nat → Nat → List ValueData → Nat → Bool →
      Nat × List ValueData × List Neuron
  | 0, ctr, s, _, _ => (ctr, s, [])
  | k + 1, ctr, s, nin, act =>
      let (ctr2, s2, neuron) := Neuron.new rng ctr s nin act
      let (ctr3, s3, rest) := Layer.newAux rng k ctr2 s2 nin act
      (ctr3, s3, neuron :: rest)

/-- `Layer::new(nin, nout, activation)` (lib.rs lines 52–58). -/
def Layer.new (rng : Nat → ℚ) (ctr : Nat) (s : List ValueData)
    (nin nout : Nat) (activation : Bool) : Nat × List ValueData × Layer :=
  let (ctr2, s2, ns) := Layer.newAux rng nout ctr s nin activation
  (ctr2, s2, ⟨ns⟩)

/-- The layer loop of `MLP::new` (lib.rs lines 87–92): layer `i` gets
`activation = i < nouts.len() - 1` (ReLU for hidden layers, linear for the
output layer); `total` is `nouts.len()`. -/
def MLP.newAux (rng : Nat → ℚ) (total : Nat) :
    Nat → Nat → List ValueData → Nat → List Nat →
      Nat × List ValueData × List Layer
  | _, ctr, s, _, [] => (ctr, s, [])
  | i, ctr, s, inSize, nout :: rest =>
      let activation := decide (i < total - 1)
      let (ctr2, s2, layer) := Layer.new rng ctr s inSize nout activation
      let (ctr3, s3, layers) := MLP.newAux rng total (i + 1) ctr2 s2 nout rest
      (ctr3, s3, layer :: layers)

/-- `MLP::new(nin, nouts)` (lib.rs lines 84–94). -/
def MLP.new (rng : Nat → ℚ) (ctr : Nat) (s : List ValueData) (nin : Nat)
    (nouts : List Nat) : Nat × List ValueData × MLP :=
  let (ctr2, s2, layers) := MLP.newAux rng nouts.length 0 ctr s nin nouts
  (ctr2, s2, ⟨layers⟩)

/-! ### Concrete instances (for witnesses and counterexamples) -/

/-- A concrete stand-in for the `powf` primitive (its value is irrelevant
to every concrete graph used below, none of which contains a `Pow` node). -/
def powf0 : ℚ → ℚ → ℚ := fun _ _ => 0

/-- A one-node arena: a single leaf with value 5 and gradient 0. -/
def leafStore : List ValueData := [⟨5, 0, none, none⟩]

/-- A leaf parameter with value 5 and gradient 3. -/
def paramStore : List ValueData := [⟨5, 3, none, none⟩]

/-- A two-leaf arena (values 7 and 4). -/
def pairStore : List ValueData := [⟨7, 0, none, none⟩, ⟨4, 0, none, none⟩]

/-- A depth-two chain `relu(relu(leaf))` with all data positive:
node 2 (root) ← node 1 ← node 0 (leaf, value 5). -/
def chainStore : List ValueData :=
  [⟨5, 0, none, none⟩, ⟨5, 0, some Op.relu, some [0]⟩,
   ⟨5, 0, some Op.relu, some [1]⟩]

/-- A root that is a single derived node of operation `op` (recorded
forward value `d`) over two distinct leaf operands with values `va`, `vb`. -/
def opStore (va vb d : ℚ) (op : Op) : List ValueData :=
  [⟨va, 0, none, none⟩, ⟨vb, 0, none, none⟩, ⟨d, 0, some op, some [0, 1]⟩]

/-- The graph of `f(x) = x*x + x + 1` at `x = 3`, built through the
graph-builder API exactly as in examples/computation_graph.rs lines 56–61
(the literal `1.0` is promoted to a leaf before the final addition). -/
def fanStore : List ValueData × Nat :=
  let (s0, x) := Value.new [] 3
  let (s1, xsq) := Value.mul s0 x x
  let (s2, y) := Value.add s1 xsq x
  let (s3, one) := Value.new s2 1
  Value.add s3 y one

/-- Arena for the width-mismatch scenario: weight leaves 2 and 3, bias
leaf 1, one input leaf 5. -/
def mismatchStore : List ValueData :=
  [⟨2, 0, none, none⟩, ⟨3, 0, none, none⟩, ⟨1, 0, none, none⟩,
   ⟨5, 0, none, none⟩]

/-- A neuron with two weights (nodes 0 and 1), bias node 2, linear. -/
def mismatchNeuron : Neuron := ⟨[0, 1], 2, false⟩

/-- A concrete random stream for network-construction witnesses. -/
def rng0 : Nat → ℚ := fun _ => 1 / 2

/-- The topological order `backward` builds for `chainStore` at root 2. -/
def topoChain : List Nat :=
  (Value.buildTopoAux (Value.setGrad chainStore 2 1)
    (Value.setGrad chainStore 2 1).length 2 ([], [])).2

/-! ### Basic arena lemmas -/

theorem modifyNode_length (s : List ValueData) (n : Nat)
    (f : ValueData → ValueData) : (modifyNode s n f).length = s.length := by
  induction s generalizing n with
  | nil => rfl
  | cons v rest ih =>
      cases n with
      | zero => rfl
      | succ k => simp [modifyNode, ih]

theorem modifyNode_of_le (s : List ValueData) (n : Nat)
    (f : ValueData → ValueData) (h : s.length ≤ n) : modifyNode s n f = s := by
  induction s generalizing n with
  | nil => rfl
  | cons v rest ih =>
      cases n with
      | zero => simp at h
      | succ k =>
          simp only [List.length_cons, Nat.succ_le_succ_iff] at h
          simp [modifyNode, ih k h]

theorem getNode_of_le (s : List ValueData) (n : Nat) (h : s.length ≤ n) :
    getNode s n = defaultNode := by
  simp [getNode, List.getD, List.getElem?_eq_none h]

theorem getNode_modifyNode_self (s : List ValueData) (n : Nat)
    (f : ValueData → ValueData) (h : n < s.length) :
    getNode (modifyNode s n f) n = f (getNode s n) := by
  induction s generalizing n with
  | nil => simp at h
  | cons v rest ih =>
      cases n with
      | zero => simp [modifyNode, getNode]
      | succ k =>
          simp only [List.length_cons, Nat.succ_lt_succ_iff] at h
          simpa [modifyNode, getNode] using ih k h

theorem getNode_modifyNode_ne (s : List ValueData) (n m : Nat)
    (f : ValueData → ValueData) (h : m ≠ n) :
    getNode (modifyNode s n f) m = getNode s m := by
  induction s generalizing n m with
  | nil => rfl
  | cons v rest ih =>
      cases n with
      | zero =>
          cases m with
          | zero => exact absurd rfl h
          | succ j => simp [modifyNode, getNode]
      | succ k =>
          cases m with
          | zero => simp [modifyNode, getNode]
          | succ j =>
              have hj : j ≠ k := fun hc => h (by simp [hc])
              simpa [modifyNode, getNode] using ih k j hj

theorem getNode_append_lt (s t : List ValueData) (n : Nat) (h : n < s.length) :
    getNode (s ++ t) n = getNode s n := by
  simp [getNode, List.getD, List.getElem?_append_left h]

theorem getNode_append_self (s : List ValueData) (x : ValueData) :
    getNode (s ++ [x]) s.length = x := by
  simp [getNode, List.getD]

/-- Arena modifications that keep the `prev` field keep operand lists. -/
theorem prevIds_modifyNode (s : List ValueData) (n : Nat)
    (f : ValueData → ValueData) (hf : ∀ vd, (f vd).prev = vd.prev) (m : Nat) :
    prevIds (modifyNode s n f) m = prevIds s m := by
  by_cases hm : m = n
  · subst hm
    by_cases hlt : m < s.length
    · simp [prevIds, getNode_modifyNode_self s m f hlt, hf]
    · rw [modifyNode_of_le s m f (Nat.le_of_not_lt hlt)]
  · simp [prevIds, getNode_modifyNode_ne s n m f hm]

theorem WF.below {s : List ValueData} (hwf : WF s) {n p : Nat}
    (hp : p ∈ prevIds s n) : p < n := by
  by_cases hn : n < s.length
  · exact hwf n hn p hp
  · rw [prevIds, getNode_of_le s n (Nat.le_of_not_lt hn)] at hp
    simp [defaultNode] at hp

theorem WF_congr {s1 s2 : List ValueData}
    (hlen : s1.length = s2.length)
    (hprev : ∀ k, prevIds s1 k = prevIds s2 k) (hwf : WF s1) : WF s2 := by
  intro n hn p hp
  exact hwf n (by omega) p (by rw [hprev]; exact hp)

/-! ### Reachability lemmas -/

theorem Reaches.single {s : List ValueData} {n p : Nat}
    (hp : p ∈ prevIds s n) : Reaches s n p :=
  Reaches.head hp (Reaches.refl p)

theorem Reaches.append {s : List ValueData} {a b c : Nat}
    (h1 : Reaches s a b) (h2 : Reaches s b c) : Reaches s a c := by
  induction h1 with
  | refl => exact h2
  | head hp _ ih => exact Reaches.head hp (ih h2)

theorem Reaches.le {s : List ValueData} (hwf : WF s) {n m : Nat}
    (h : Reaches s n m) : m ≤ n := by
  induction h with
  | refl => exact Nat.le_refl _
  | head hp _ ih => exact Nat.le_trans ih (Nat.le_of_lt (hwf.below hp))

theorem Reaches_congr {s1 s2 : List ValueData}
    (hprev : ∀ k, prevIds s1 k = prevIds s2 k) {a b : Nat}
    (h : Reaches s1 a b) : Reaches s2 a b := by
  induction h with
  | refl => exact Reaches.refl _
  | head hp _ ih => exact Reaches.head (by rw [← hprev]; exact hp) ih

/-- Everything reachable from a member of a parent-closed set stays in it. -/
theorem reaches_mem_of_closed {s : List ValueData} {t : List Nat}
    (hcl : ∀ m ∈ t, ∀ p ∈ prevIds s m, p ∈ t) {n m : Nat}
    (hn : n ∈ t) (h : Reaches s n m) : m ∈ t := by
  induction h with
  | refl => exact hn
  | head hp _ ih => exact ih (hcl _ hn _ hp)

/-! ### Depth-first topological sort: specification of `build_topo`

`build_topo` is called on state `(visited, topo)`.  `TopoIn` are the
preconditions under which a call on node `n` behaves well: `topo` is
duplicate-free, recorded in `visited`, closed under operands with every
operand listed before its dependent, every visited-but-unfinished node
(an ancestor whose call is still open) has index at least `n`, and `n`
itself is unfinished only if unvisited. -/

structure TopoIn (s : List ValueData) (n : Nat) (v t : List Nat) : Prop where
  nd : t.Nodup
  sub : ∀ m ∈ t, m ∈ v
  ord : ∀ m ∈ t, ∀ p ∈ prevIds s m, List.Sublist [p, m] t
  hi : ∀ m ∈ v, m ∉ t → n ≤ m
  fin : n ∈ v → n ∈ t

/-- Postcondition of a `build_topo` call on node `n` taking state `(v, t)`
to `(v2, t2)`: `topo` grows by exactly the newly visited nodes, all of them
reachable from `n` with index at most `n`; visited = old visited plus new
topo entries; no duplicates; operands still precede dependents; and every
node reachable from `n` has been output. -/
structure TopoOut (s : List ValueData) (n : Nat) (v t v2 t2 : List Nat) :
    Prop where
  ext : ∃ d, t2 = t ++ d
  newm : ∀ m ∈ t2, m ∈ t ∨ (m ∉ v ∧ m ≤ n ∧ Reaches s n m)
  vset : ∀ m, m ∈ v2 ↔ (m ∈ v ∨ m ∈ t2)
  nd : t2.Nodup
  ord : ∀ m ∈ t2, ∀ p ∈ prevIds s m, List.Sublist [p, m] t2
  compl : ∀ m, Reaches s n m → m ∈ t2

/-- Invariant threaded through the fold over the operand list of `n`
(state `(vi, ti)` relative to the state `(v, t)` at entry of `n`'s call,
where `n` has been marked visited but not yet output). -/
structure FoldInv (s : List ValueData) (n : Nat) (v t vi ti : List Nat) :
    Prop where
  ext : ∃ d, ti = t ++ d
  newm : ∀ m ∈ ti, m ∈ t ∨ (m ∉ v ∧ m < n ∧ Reaches s n m)
  vset : ∀ m, m ∈ vi ↔ (m ∈ v ∨ m = n ∨ m ∈ ti)
  nd : ti.Nodup
  ord : ∀ m ∈ ti, ∀ p ∈ prevIds s m, List.Sublist [p, m] ti
  nmem : n ∉ ti

theorem buildTopoAux_succ (s : List ValueData) (fuel n : Nat)
    (v t : List Nat) :
    Value.buildTopoAux s (fuel + 1) n (v, t) =
      if n ∈ v then (v, t)
      else
        let st2 := (prevIds s n).foldl
          (fun st p => Value.buildTopoAux s fuel p st) (n :: v, t)
        (st2.1, st2.2 ++ [n]) := rfl

/-- A mid-fold state satisfies the call precondition of any operand
`p < n` of the currently open node `n`. -/
theorem FoldInv.toTopoIn {s : List ValueData} {n : Nat} {v t vi ti : List Nat}
    (hin : TopoIn s n v t) (_hnv : n ∉ v)
    (hfi : FoldInv s n v t vi ti) {p : Nat} (hp : p < n) :
    TopoIn s p vi ti := by
  obtain ⟨d, hd⟩ := hfi.ext
  refine ⟨hfi.nd, fun m hm => (hfi.vset m).2 (Or.inr (Or.inr hm)), hfi.ord,
    ?_, ?_⟩
  · intro m hm hmt
    rcases (hfi.vset m).1 hm with hv | hn | ht
    · have hmt' : m ∉ t := fun hc => hmt (hd ▸ List.mem_append_left d hc)
      exact Nat.le_trans (Nat.le_of_lt hp) (hin.hi m hv hmt')
    · exact hn ▸ Nat.le_of_lt hp
    · exact absurd ht hmt
  · intro hpv
    rcases (hfi.vset p).1 hpv with hv | hn | ht
    · by_cases hpt : p ∈ t
      · exact hd ▸ List.mem_append_left d hpt
      · exact absurd (hin.hi p hv hpt) (Nat.not_le_of_lt hp)
    · exact absurd hn (Nat.ne_of_lt hp)
    · exact ht

/-- The fold over the operand list preserves `FoldInv`, only appends to
`topo`, and outputs everything reachable from each operand processed. -/
theorem foldTopo_spec (s : List ValueData) (hwf : WF s) (fuel n : Nat)
    (hn : n ≤ fuel) (v t : List Nat) (hin : TopoIn s n v t) (hnv : n ∉ v)
    (IH : ∀ k vk tk, k < fuel → TopoIn s k vk tk →
      TopoOut s k vk tk (Value.buildTopoAux s fuel k (vk, tk)).1
        (Value.buildTopoAux s fuel k (vk, tk)).2) :
    ∀ (ps : List Nat) (vi ti : List Nat),
      (∀ p ∈ ps, p ∈ prevIds s n) → FoldInv s n v t vi ti →
      FoldInv s n v t
          (ps.foldl (fun st p => Value.buildTopoAux s fuel p st) (vi, ti)).1
          (ps.foldl (fun st p => Value.buildTopoAux s fuel p st) (vi, ti)).2 ∧
        (∃ d, (ps.foldl (fun st p => Value.buildTopoAux s fuel p st)
            (vi, ti)).2 = ti ++ d) ∧
        ∀ q ∈ ps, ∀ m, Reaches s q m →
          m ∈ (ps.foldl (fun st p => Value.buildTopoAux s fuel p st)
            (vi, ti)).2 := by
  intro ps
  induction ps with
  | nil =>
      intro vi ti _ hfi
      exact ⟨hfi, ⟨[], by simp⟩, by simp⟩
  | cons p rest ihps =>
      intro vi ti hps hfi
      have hp_prev : p ∈ prevIds s n := hps p (List.mem_cons_self p rest)
      have hp_lt : p < n := hwf.below hp_prev
      have hp_fuel : p < fuel := Nat.lt_of_lt_of_le hp_lt hn
      have hout := IH p vi ti hp_fuel (hfi.toTopoIn hin hnv hp_lt)
      set r1 := Value.buildTopoAux s fuel p (vi, ti) with hr1
      obtain ⟨d1, hd1⟩ := hout.ext
      -- re-establish the invariant after the call on `p`
      have hfi2 : FoldInv s n v t r1.1 r1.2 := by
        obtain ⟨d0, hd0⟩ := hfi.ext
        refine ⟨⟨d0 ++ d1, by rw [hd1, hd0, List.append_assoc]⟩, ?_, ?_,
          hout.nd, hout.ord, ?_⟩
        · intro m hm
          rcases hout.newm m hm with ht | ⟨hnv1, hle, hr⟩
          · exact hfi.newm m ht
          · refine Or.inr ⟨fun hc => hnv1 ((hfi.vset m).2 (Or.inl hc)),
              Nat.lt_of_le_of_lt hle hp_lt, Reaches.head hp_prev hr⟩
        · intro m
          constructor
          · intro hm
            rcases (hout.vset m).1 hm with hvi | ht2
            · rcases (hfi.vset m).1 hvi with h | h | h
              · exact Or.inl h
              · exact Or.inr (Or.inl h)
              · exact Or.inr (Or.inr (hd1 ▸ List.mem_append_left d1 h))
            · exact Or.inr (Or.inr ht2)
          · intro hm
            rcases hm with h | h | h
            · exact (hout.vset m).2 (Or.inl ((hfi.vset m).2 (Or.inl h)))
            · exact (hout.vset m).2 (Or.inl ((hfi.vset m).2 (Or.inr (Or.inl h))))
            · exact (hout.vset m).2 (Or.inr h)
        · intro hc
          rcases hout.newm n hc with ht | ⟨_, hle, _⟩
          · exact hfi.nmem ht
          · exact absurd hle (Nat.not_le_of_lt hp_lt)
      have hrest := ihps r1.1 r1.2
        (fun q hq => hps q (List.mem_cons_of_mem p hq)) hfi2
      have hfold : (p :: rest).foldl
          (fun st p => Value.buildTopoAux s fuel p st) (vi, ti) =
          rest.foldl (fun st p => Value.buildTopoAux s fuel p st)
            (r1.1, r1.2) := by
        simp [List.foldl_cons, hr1]
      rw [hfold]
      obtain ⟨d2, hd2⟩ := hrest.2.1
      refine ⟨hrest.1, ⟨d1 ++ d2, by rw [hd2, hd1, List.append_assoc]⟩, ?_⟩
      intro q hq m hr
      rcases List.mem_cons.1 hq with rfl | hq'
      · have : m ∈ r1.2 := hout.compl m hr
        exact hd2 ▸ List.mem_append_left d2 this
      · exact hrest.2.2 q hq' m hr

/-- Main specification of `Value::build_topo` (value.rs lines 74–85):
with enough fuel (more than the node index, which the well-formedness
invariant guarantees suffices), a call on `n` satisfies `TopoOut`. -/
theorem buildTopo_spec (s : List ValueData) (hwf : WF s) :
    ∀ fuel n v t, n < fuel → TopoIn s n v t →
      TopoOut s n v t (Value.buildTopoAux s fuel n (v, t)).1
        (Value.buildTopoAux s fuel n (v, t)).2 := by
  intro fuel
  induction fuel with
  | zero => intro n v t hn; exact absurd hn (Nat.not_lt_zero n)
  | succ fuel ih =>
      intro n v t hn hin
      rw [buildTopoAux_succ]
      by_cases hnv : n ∈ v
      · simp only [if_pos hnv]
        have hnt : n ∈ t := hin.fin hnv
        have hcl : ∀ m ∈ t, ∀ p ∈ prevIds s m, p ∈ t := by
          intro m hm p hp
          exact (hin.ord m hm p hp).subset (by simp)
        exact ⟨⟨[], by simp⟩, fun m hm => Or.inl hm,
          fun m => ⟨fun h => Or.inl h,
            fun h => h.elim id (fun ht => hin.sub m ht)⟩,
          hin.nd, hin.ord,
          fun m hr => reaches_mem_of_closed hcl hnt hr⟩
      · simp only [if_neg hnv]
        have hfi0 : FoldInv s n v t (n :: v) t := by
          refine ⟨⟨[], by simp⟩, fun m hm => Or.inl hm, ?_, hin.nd, hin.ord,
            fun hc => hnv (hin.sub n hc)⟩
          intro m
          constructor
          · intro hm
            rcases List.mem_cons.1 hm with rfl | h
            · exact Or.inr (Or.inl rfl)
            · exact Or.inl h
          · intro hm
            rcases hm with h | h | h
            · exact List.mem_cons_of_mem n h
            · exact h ▸ List.mem_cons_self n v
            · exact List.mem_cons_of_mem n (hin.sub m h)
        have hfold := foldTopo_spec s hwf fuel n (Nat.lt_succ_iff.1 hn) v t
          hin hnv ih (prevIds s n) (n :: v) t (fun p hp => hp) hfi0
        set st2 := (prevIds s n).foldl
          (fun st p => Value.buildTopoAux s fuel p st) (n :: v, t) with hst2
        obtain ⟨hfi, ⟨d, hd⟩, hreach⟩ := hfold
        obtain ⟨d0, hd0⟩ := hfi.ext
        refine ⟨⟨d0 ++ [n], by rw [hd0, List.append_assoc]⟩, ?_, ?_, ?_, ?_, ?_⟩
        · intro m hm
          rcases List.mem_append.1 hm with h | h
          · rcases hfi.newm m h with ht | ⟨h1, h2, h3⟩
            · exact Or.inl ht
            · exact Or.inr ⟨h1, Nat.le_of_lt h2, h3⟩
          · have hmn : m = n := by simpa using h
            subst hmn
            exact Or.inr ⟨hnv, Nat.le_refl _, Reaches.refl _⟩
        · intro m
          rw [hfi.vset m, List.mem_append]
          constructor
          · intro h
            rcases h with h | h | h
            · exact Or.inl h
            · exact Or.inr (Or.inr (by simp [h]))
            · exact Or.inr (Or.inl h)
          · intro h
            rcases h with h | h | h
            · exact Or.inl h
            · exact Or.inr (Or.inr h)
            · exact Or.inr (Or.inl (by simpa using h))
        · refine hfi.nd.append (List.nodup_singleton n) ?_
          intro a ha hb
          have : a = n := by simpa using hb
          exact hfi.nmem (this ▸ ha)
        · intro m hm p hp
          rcases List.mem_append.1 hm with h | h
          · exact (hfi.ord m h p hp).trans (List.sublist_append_left st2.2 [n])
          · have hmn : m = n := by simpa using h
            subst hmn
            have hpm : p ∈ st2.2 := hreach p hp p (Reaches.refl p)
            have h1 : List.Sublist [p] st2.2 := List.singleton_sublist.2 hpm
            exact h1.append (List.Sublist.refl [m])
        · intro m hr
          cases hr with
          | refl => exact List.mem_append_right _ (by simp)
          | head hp hr' =>
              exact List.mem_append_left _ (hreach _ hp _ hr')

/-! ### Claim C1: topological correctness of `backward` -/

/-- C1: the order `backward` builds for a well-formed arena contains each
node reachable from the root through operand chains exactly once
(duplicate-free, membership characterised by identity-based reachability),
every operand precedes the node depending on it, and `backward` runs the
reverse sweep by folding over the reversed order starting from the
gradient-seeded arena. -/
theorem backward_topo_correct (powf : ℚ → ℚ → ℚ) (s : List ValueData)
    (root : Nat) (hwf : WF s) (hroot : root < s.length) :
    ∀ topo, topo = (Value.buildTopoAux (Value.setGrad s root 1)
        (Value.setGrad s root 1).length root ([], [])).2 →
      topo.Nodup ∧
      (∀ n, n ∈ topo ↔ Reaches s root n) ∧
      (∀ n ∈ topo, ∀ p ∈ prevIds s n, List.Sublist [p, n] topo) ∧
      Value.backward powf s root =
        topo.reverse.foldl (Value.backStep powf) (Value.setGrad s root 1) := by
  intro topo htopo
  subst htopo
  have hlen : (Value.setGrad s root 1).length = s.length :=
    modifyNode_length s root _
  have hprev : ∀ k, prevIds (Value.setGrad s root 1) k = prevIds s k :=
    fun k => prevIds_modifyNode s root (fun vd => { vd with grad := 1 })
      (fun vd => rfl) k
  have hwf1 : WF (Value.setGrad s root 1) :=
    WF_congr hlen.symm (fun k => (hprev k).symm) hwf
  have hin : TopoIn (Value.setGrad s root 1) root [] [] :=
    ⟨List.nodup_nil, by simp, by simp, by simp, by simp⟩
  have hout := buildTopo_spec (Value.setGrad s root 1) hwf1
    (Value.setGrad s root 1).length root [] [] (by rw [hlen]; exact hroot) hin
  refine ⟨hout.nd, ?_, ?_, rfl⟩
  · intro n
    constructor
    · intro hn
      rcases hout.newm n hn with h | ⟨_, _, hr⟩
      · simp at h
      · exact Reaches_congr hprev hr
    · intro hr
      exact hout.compl n (Reaches_congr (fun k => (hprev k).symm) hr)
  · intro n hn p hp
    exact hout.ord n hn p (by rw [hprev]; exact hp)

/-- Witness for C1 on the two-level chain arena. -/
theorem backward_topo_correct_witness :
    topoChain.Nodup ∧
    (∀ n, n ∈ topoChain ↔ Reaches chainStore 2 n) ∧
    (∀ n ∈ topoChain, ∀ p ∈ prevIds chainStore n, List.Sublist [p, n] topoChain) ∧
    Value.backward powf0 chainStore 2 =
      topoChain.reverse.foldl (Value.backStep powf0)
        (Value.setGrad chainStore 2 1) :=
  backward_topo_correct powf0 chainStore 2
    (by show ∀ n, n < chainStore.length → ∀ p ∈ prevIds chainStore n, p < n
        decide)
    (by decide) topoChain rfl

/-! ### Gradient-flow frame lemmas for the reverse sweep -/

/-- Writers that keep `data`, `op` and `prev` keep them at every index. -/
theorem getNode_modify_fields (s : List ValueData) (n : Nat)
    (f : ValueData → ValueData)
    (hf : ∀ vd, (f vd).data = vd.data ∧ (f vd).op = vd.op ∧
      (f vd).prev = vd.prev) (k : Nat) :
    (getNode (modifyNode s n f) k).data = (getNode s k).data ∧
    (getNode (modifyNode s n f) k).op = (getNode s k).op ∧
    (getNode (modifyNode s n f) k).prev = (getNode s k).prev := by
  by_cases hk : k = n
  · subst hk
    by_cases hlt : k < s.length
    · rw [getNode_modifyNode_self s k f hlt]
      exact hf _
    · rw [modifyNode_of_le s k f (Nat.le_of_not_lt hlt)]
      exact ⟨rfl, rfl, rfl⟩
  · rw [getNode_modifyNode_ne s n k f hk]
    exact ⟨rfl, rfl, rfl⟩

/-- The gradient-accumulation fold touches only gradients. -/
theorem foldl_addGrad_fields (l : List (Nat × ℚ)) :
    ∀ (s : List ValueData) (k : Nat),
      (getNode (l.foldl (fun st pg => Value.addGrad st pg.1 pg.2) s) k).data
          = (getNode s k).data ∧
      (getNode (l.foldl (fun st pg => Value.addGrad st pg.1 pg.2) s) k).op
          = (getNode s k).op ∧
      (getNode (l.foldl (fun st pg => Value.addGrad st pg.1 pg.2) s) k).prev
          = (getNode s k).prev := by
  induction l with
  | nil => intro s k; exact ⟨rfl, rfl, rfl⟩
  | cons pg rest ih =>
      intro s k
      have hstep := getNode_modify_fields s pg.1
        (fun vd => { vd with grad := vd.grad + pg.2 }) (fun vd => ⟨rfl, rfl, rfl⟩) k
      have := ih (Value.addGrad s pg.1 pg.2) k
      rw [List.foldl_cons]
      exact ⟨this.1.trans hstep.1, this.2.1.trans hstep.2.1,
        this.2.2.trans hstep.2.2⟩

/-- The gradient of an index not among the accumulation targets is kept. -/
theorem foldl_addGrad_grad_ne (l : List (Nat × ℚ)) :
    ∀ (s : List ValueData) (r : Nat), (∀ pg ∈ l, pg.1 ≠ r) →
      (getNode (l.foldl (fun st pg => Value.addGrad st pg.1 pg.2) s) r).grad
        = (getNode s r).grad := by
  induction l with
  | nil => intro s r _; rfl
  | cons pg rest ih =>
      intro s r hl
      rw [List.foldl_cons]
      rw [ih (Value.addGrad s pg.1 pg.2) r
        (fun q hq => hl q (List.mem_cons_of_mem pg hq))]
      exact congrArg ValueData.grad (getNode_modifyNode_ne s pg.1 r _
        (fun hc => hl pg (List.mem_cons_self pg rest) (hc ▸ rfl)))

/-- One sweep step keeps `data`, `op` and `prev` at every index. -/
theorem backStep_fields (powf : ℚ → ℚ → ℚ) (s : List ValueData) (c k : Nat) :
    (getNode (Value.backStep powf s c) k).data = (getNode s k).data ∧
    (getNode (Value.backStep powf s c) k).op = (getNode s k).op ∧
    (getNode (Value.backStep powf s c) k).prev = (getNode s k).prev := by
  unfold Value.backStep
  rcases h1 : (getNode s c).op with _ | op
  · exact ⟨rfl, rfl, rfl⟩
  · rcases h2 : (getNode s c).prev with _ | parents
    · exact ⟨rfl, rfl, rfl⟩
    · exact foldl_addGrad_fields _ s k

/-- One sweep step on node `c` keeps the gradient of any index that is not
an operand of `c`. -/
theorem backStep_grad_notin (powf : ℚ → ℚ → ℚ) (s : List ValueData)
    (c r : Nat) (h : r ∉ prevIds s c) :
    (getNode (Value.backStep powf s c) r).grad = (getNode s r).grad := by
  unfold Value.backStep
  rcases h1 : (getNode s c).op with _ | op
  · rfl
  · rcases h2 : (getNode s c).prev with _ | parents
    · rfl
    · refine foldl_addGrad_grad_ne _ s r ?_
      rintro ⟨p1, g1⟩ hpg hc
      have hmem : p1 ∈ parents := (List.of_mem_zip hpg).1
      have hp : p1 ∈ prevIds s c := by
        rw [prevIds, h2]
        exact hmem
      exact h (hc ▸ hp)

/-- The whole sweep keeps the gradient of an index never used as an
operand of a swept node. -/
theorem foldl_backStep_grad (powf : ℚ → ℚ → ℚ) (l : List Nat) (r : Nat)
    (s1 : List ValueData) (hl : ∀ c ∈ l, r ∉ prevIds s1 c) :
    ∀ s2, (∀ k, (getNode s2 k).prev = (getNode s1 k).prev) →
      (getNode (l.foldl (Value.backStep powf) s2) r).grad
        = (getNode s2 r).grad := by
  induction l with
  | nil => intro s2 _; rfl
  | cons c rest ih =>
      intro s2 hpr
      have hc : r ∉ prevIds s2 c := by
        have : prevIds s2 c = prevIds s1 c := by
          rw [prevIds, prevIds, hpr c]
        rw [this]
        exact hl c (List.mem_cons_self c rest)
      have hstep : ∀ k, (getNode (Value.backStep powf s2 c) k).prev
          = (getNode s1 k).prev :=
        fun k => ((backStep_fields powf s2 c k).2.2).trans (hpr k)
      rw [List.foldl_cons,
        ih (fun q hq => hl q (List.mem_cons_of_mem c hq))
          (Value.backStep powf s2 c) hstep,
        backStep_grad_notin powf s2 c r hc]

/-! ### Claim C10: the root's gradient after `backward` is exactly 1 -/

/-- C10: whatever the root's gradient was before the call, `backward`
overwrites it with the seed 1.0, and since no node reachable from the root
of a well-formed arena lists the root as an operand, no sweep step
accumulates anything further onto the root: its gradient is exactly 1
afterwards. -/
theorem backward_root_grad_one (powf : ℚ → ℚ → ℚ) (s : List ValueData)
    (root : Nat) (hwf : WF s) (hroot : root < s.length) :
    (getNode (Value.backward powf s root) root).grad = 1 := by
  have hlen : (Value.setGrad s root 1).length = s.length :=
    modifyNode_length s root _
  have hprev : ∀ k, prevIds (Value.setGrad s root 1) k = prevIds s k :=
    fun k => prevIds_modifyNode s root (fun vd => { vd with grad := 1 })
      (fun vd => rfl) k
  have hwf1 : WF (Value.setGrad s root 1) :=
    WF_congr hlen.symm (fun k => (hprev k).symm) hwf
  have hin : TopoIn (Value.setGrad s root 1) root [] [] :=
    ⟨List.nodup_nil, by simp, by simp, by simp, by simp⟩
  have hout := buildTopo_spec (Value.setGrad s root 1) hwf1
    (Value.setGrad s root 1).length root [] [] (by rw [hlen]; exact hroot) hin
  have hmem_le : ∀ c ∈ (Value.buildTopoAux (Value.setGrad s root 1)
      (Value.setGrad s root 1).length root ([], [])).2, c ≤ root := by
    intro c hc
    rcases hout.newm c hc with h | ⟨_, hle, _⟩
    · simp at h
    · exact hle
  have hnotin : ∀ c ∈ (Value.buildTopoAux (Value.setGrad s root 1)
      (Value.setGrad s root 1).length root ([], [])).2.reverse,
      root ∉ prevIds (Value.setGrad s root 1) c := by
    intro c hc hmem
    have hcle : c ≤ root := hmem_le c (List.mem_reverse.1 hc)
    have hlt : root < c := hwf1.below hmem
    omega
  show (getNode ((Value.buildTopoAux (Value.setGrad s root 1)
      (Value.setGrad s root 1).length root ([], [])).2.reverse.foldl
      (Value.backStep powf) (Value.setGrad s root 1)) root).grad = 1
  rw [foldl_backStep_grad powf _ root (Value.setGrad s root 1) hnotin
    (Value.setGrad s root 1) (fun k => rfl)]
  rw [Value.setGrad, getNode_modifyNode_self s root _ hroot]

/-- Witness for C10 on the two-level chain arena. -/
theorem backward_root_grad_one_witness :
    (getNode (Value.backward powf0 chainStore 2) 2).grad = 1 :=
  backward_root_grad_one powf0 chainStore 2
    (by show ∀ n, n < chainStore.length → ∀ p ∈ prevIds chainStore n, p < n
        decide)
    (by decide)

/-! ### Claim C2: local-gradient rules of the operation registry -/

/-- C2: given upstream gradient `g` flowing into a derived node,
`Op::backward` pushes: for `Add`, `g` to each operand; for `Mul` with
operand values `va, vb`, `g*vb` to the first and `g*va` to the second; for
`Pow(e)` with operand value `va`, `g*e*powf(va, e-1)`; for `ReLU`, `g` if
the operand value is strictly positive and `0` otherwise — in particular
`0` at operand value exactly `0`. -/
theorem op_backward_rules (powf : ℚ → ℚ → ℚ) (g va vb e : ℚ)
    (inputs : List ℚ) :
    Op.backward powf Op.add g inputs = [g, g] ∧
    Op.backward powf Op.mul g [va, vb] = [g * vb, g * va] ∧
    Op.backward powf (Op.pow e) g [va] = [g * e * powf va (e - 1)] ∧
    Op.backward powf Op.relu g [va] = [if 0 < va then g else 0] ∧
    Op.backward powf Op.relu g [(0 : ℚ)] = [0] := by
  refine ⟨rfl, rfl, rfl, rfl, ?_⟩
  simp [Op.backward]

/-! ### Claim C8: `set_data` changes only the forward value -/

/-- C8: `set_data(node, v)` overwrites only the node's forward value: the
node keeps its gradient, operation tag and operand list, and every other
node of the arena is untouched. -/
theorem setData_frame (s : List ValueData) (n : Nat) (v : ℚ) :
    (n < s.length →
      getNode (Value.setData s n v) n = { getNode s n with data := v }) ∧
    (∀ m, m ≠ n → getNode (Value.setData s n v) m = getNode s m) := by
  constructor
  · intro h
    rw [Value.setData, getNode_modifyNode_self s n _ h]
  · intro m hm
    rw [Value.setData, getNode_modifyNode_ne s n m _ hm]

/-- Witness for C8 at a concrete arena. -/
theorem setData_frame_witness :
    getNode (Value.setData paramStore 0 9) 0 =
      { getNode paramStore 0 with data := 9 } ∧
    getNode (Value.setData paramStore 0 9) 1 = getNode paramStore 1 :=
  ⟨(setData_frame paramStore 0 9).1 (by decide),
   (setData_frame paramStore 0 9).2 1 (by decide)⟩

/-! ### Claim C7: the gradient-descent update rule -/

/-- C7: `update(node, lr)` replaces the node's value in place by
`value - lr * gradient`, both read at call time; the gradient, provenance
and all other nodes are untouched. -/
theorem update_rule (s : List ValueData) (n : Nat) (lr : ℚ) :
    Value.update s n lr =
      Value.setData s n ((getNode s n).data - lr * (getNode s n).grad) ∧
    (n < s.length →
      getNode (Value.update s n lr) n =
        { getNode s n with
            data := (getNode s n).data - lr * (getNode s n).grad }) ∧
    (∀ m, m ≠ n → getNode (Value.update s n lr) m = getNode s m) := by
  refine ⟨rfl, ?_, ?_⟩
  · intro h
    rw [Value.update, Value.setData, getNode_modifyNode_self s n _ h]
  · intro m hm
    rw [Value.update, Value.setData, getNode_modifyNode_ne s n m _ hm]

/-- Witness for C7: updating the value-5, gradient-3 parameter with
learning rate 2 stores 5 - 2·3. -/
theorem update_rule_witness :
    getNode (Value.update paramStore 0 2) 0 =
      { getNode paramStore 0 with
          data := (getNode paramStore 0).data - 2 * (getNode paramStore 0).grad } ∧
    getNode (Value.update paramStore 0 2) 1 = getNode paramStore 1 :=
  ⟨(update_rule paramStore 0 2).2.1 (by decide),
   (update_rule paramStore 0 2).2.2 1 (by decide)⟩

/-! ### Claim C3: fan-out accumulates gradients -/

/-- C3: on the graph of `f(x) = x*x + x + 1` at `x = 3` built exactly as in
examples/computation_graph.rs, the forward value is 13 and the gradient of
the shared leaf `x` after `backward` is 7 = 2·3 + 1: both uses of `x`
summed their contributions.  The sweep's accumulation primitive adds onto
the stored gradient, never overwrites it. -/
theorem fanout_accumulates (powf : ℚ → ℚ → ℚ) :
    (getNode fanStore.1 fanStore.2).data = 13 ∧
    (getNode (Value.backward powf fanStore.1 fanStore.2) 0).grad = 7 ∧
    (∀ (s : List ValueData) (n : Nat) (g : ℚ), n < s.length →
      (getNode (Value.addGrad s n g) n).grad = (getNode s n).grad + g) := by
  refine ⟨?_, ?_, ?_⟩
  · norm_num [fanStore, Value.new, Value.mul, Value.add, getNode]
  · norm_num [fanStore, Value.new, Value.mul, Value.add, Value.backward,
      Value.buildTopoAux, Value.setGrad, Value.backStep, Value.addGrad,
      modifyNode, getNode, prevIds, Op.backward]
  · intro s n g h
    rw [Value.addGrad, getNode_modifyNode_self s n _ h]

/-- Witness for C3: the accumulation primitive evaluated on the concrete
parameter arena. -/
theorem fanout_accumulates_witness :
    (getNode fanStore.1 fanStore.2).data = 13 ∧
    (getNode (Value.backward powf0 fanStore.1 fanStore.2) 0).grad = 7 ∧
    (getNode (Value.addGrad paramStore 0 2) 0).grad
      = (getNode paramStore 0).grad + 2 :=
  ⟨(fanout_accumulates powf0).1, (fanout_accumulates powf0).2.1,
   (fanout_accumulates powf0).2.2 paramStore 0 2 (by decide)⟩

/-! ### Claim C5: mismatched input width is silently truncated -/

/-- C5 (evidence of the code's behaviour): `Neuron::forward` on a neuron
with two weights (values 2 and 3, bias 1) and an input sequence of length
one (the leaf holding 5) does not fail: the `zip` silently pairs only the
common prefix, two derived nodes are appended, and the returned node holds
`bias + w0·x0 = 1 + 2·5 = 11` — weight 3 is ignored. -/
theorem forward_mismatch_truncates :
    (Neuron.forward mismatchStore mismatchNeuron [3]).2 = 5 ∧
    (Neuron.forward mismatchStore mismatchNeuron [3]).1.length = 6 ∧
    (getNode (Neuron.forward mismatchStore mismatchNeuron [3]).1 5).data = 11 := by
  refine ⟨?_, ?_, ?_⟩ <;>
    norm_num [Neuron.forward, Neuron.affine, mismatchStore, mismatchNeuron,
      Value.mul, Value.add, getNode]

/-! ### Claim C6: subtraction is `a + (b * -1.0)` -/

/-- C6: `a - b` produces exactly the graph of `a + (b * -1.0)`: a fresh
leaf holding -1, a `Mul` node with operands `(b, that leaf)`, and an `Add`
node with left operand `a` and the `Mul` node as right operand; the forward
value is `value(a) + value(b)·(-1)`. -/
theorem sub_structure (s : List ValueData) (a b : Nat)
    (ha : a < s.length) (hb : b < s.length) :
    Value.sub s a b =
      (let sm := Value.mulScalar s b (-1)
       Value.add sm.1 a sm.2) ∧
    Value.sub s a b =
      (s ++ [⟨-1, 0, none, none⟩,
             ⟨(getNode s b).data * -1, 0, some Op.mul, some [b, s.length]⟩,
             ⟨(getNode s a).data + (getNode s b).data * -1, 0, some Op.add,
              some [a, s.length + 1]⟩],
       s.length + 2) := by
  refine ⟨rfl, ?_⟩
  have h1 : getNode (s ++ [(⟨-1, 0, none, none⟩ : ValueData)]) b
      = getNode s b := getNode_append_lt s _ b hb
  have h2 : getNode (s ++ [(⟨-1, 0, none, none⟩ : ValueData)]) s.length
      = ⟨-1, 0, none, none⟩ := getNode_append_self s _
  have ha1 : a < (s ++ [(⟨-1, 0, none, none⟩ : ValueData)]).length := by
    simp; omega
  unfold Value.sub Value.mulScalar Value.new Value.mul Value.add
  simp only [h1, h2]
  rw [getNode_append_lt _ _ a ha1, getNode_append_lt s _ a ha,
    getNode_append_self]
  simp [List.append_assoc]

/-! ### Claim C4: two `backward` calls without zeroing -/

/-- C4 counterexample: on the chain `relu(relu(leaf 5))` with zero initial
gradients, a single `backward` gives the leaf gradient 1, but two
consecutive `backward` calls give it 3 (the second sweep pushes
contributions computed from the accumulated interior gradients), not the
doubled value 2; the root itself also stays at 1, not 2. -/
theorem backward_twice_not_double :
    (getNode (Value.backward powf0 (Value.backward powf0 chainStore 2) 2)
        0).grad = 3 ∧
    (getNode (Value.backward powf0 chainStore 2) 0).grad = 1 ∧
    ¬ ((getNode (Value.backward powf0 (Value.backward powf0 chainStore 2) 2)
          0).grad
        = 2 * (getNode (Value.backward powf0 chainStore 2) 0).grad) := by
  have h1 : (getNode (Value.backward powf0 chainStore 2) 0).grad = 1 := by
    norm_num [chainStore, Value.backward, Value.buildTopoAux, Value.setGrad,
      Value.backStep, Value.addGrad, modifyNode, getNode, prevIds,
      Op.backward, powf0]
  have h2 : (getNode (Value.backward powf0 (Value.backward powf0 chainStore 2)
      2) 0).grad = 3 := by
    norm_num [chainStore, Value.backward, Value.buildTopoAux, Value.setGrad,
      Value.backStep, Value.addGrad, modifyNode, getNode, prevIds,
      Op.backward, powf0]
  refine ⟨h2, h1, ?_⟩
  rw [h1, h2]
  norm_num

set_option maxHeartbeats 4000000 in
/-- C4 amended: when the root is a single derived node over two distinct
leaf operands, two consecutive `backward` calls without zeroing leave each
leaf with exactly twice the single-call gradient, while the root's own
gradient is re-seeded to 1.0 (not doubled) by each call; the doubling does
not extend to roots themselves or to nodes at depth two or more. -/
theorem backward_twice_depth_one (powf : ℚ → ℚ → ℚ) (va vb d : ℚ) (op : Op) :
    (getNode (Value.backward powf
        (Value.backward powf (opStore va vb d op) 2) 2) 0).grad
      = 2 * (getNode (Value.backward powf (opStore va vb d op) 2) 0).grad ∧
    (getNode (Value.backward powf
        (Value.backward powf (opStore va vb d op) 2) 2) 1).grad
      = 2 * (getNode (Value.backward powf (opStore va vb d op) 2) 1).grad ∧
    (getNode (Value.backward powf (opStore va vb d op) 2) 2).grad = 1 ∧
    (getNode (Value.backward powf
        (Value.backward powf (opStore va vb d op) 2) 2) 2).grad = 1 := by
  cases op <;>
    refine ⟨?_, ?_, ?_, ?_⟩ <;>
      simp [opStore, Value.backward, Value.buildTopoAux, Value.setGrad,
        Value.backStep, Value.addGrad, modifyNode, getNode, prevIds,
        Op.backward] <;>
      first
        | ring1
        | (split <;> ring1)

/-! ### Claim C9: hidden layers are ReLU, the last layer is linear -/

/-- `Neuron::new` stores the requested activation flag unchanged. -/
theorem Neuron.new_activation (rng : Nat → ℚ) (ctr : Nat) (s : List ValueData)
    (nin : Nat) (act : Bool) :
    ((Neuron.new rng ctr s nin act).2.2).activation = act := by
  rcases hw : Neuron.newWeights rng nin ctr s with ⟨s2, ws, c2⟩
  simp [Neuron.new, hw, Value.new]

/-- Every neuron built by the layer loop carries the layer's flag. -/
theorem Layer.newAux_activation (rng : Nat → ℚ) :
    ∀ (k ctr : Nat) (s : List ValueData) (nin : Nat) (act : Bool),
      ∀ m ∈ (Layer.newAux rng k ctr s nin act).2.2, m.activation = act := by
  intro k
  induction k with
  | zero =>
      intro ctr s nin act m hm
      simp [Layer.newAux] at hm
  | succ k ih =>
      intro ctr s nin act m hm
      rcases hn : Neuron.new rng ctr s nin act with ⟨c2, s2, neuron⟩
      rcases hr : Layer.newAux rng k c2 s2 nin act with ⟨c3, s3, rest⟩
      simp only [Layer.newAux, hn, hr] at hm
      simp at hm
      rcases hm with rfl | hm
      · have h := Neuron.new_activation rng ctr s nin act
        rw [hn] at h
        exact h
      · have h := ih c2 s2 nin act m
        rw [hr] at h
        exact h hm

/-- Length and activation flags of the layers built by the `MLP::new`
loop: layer `i + j` (at offset `j` of the remaining widths) gets ReLU
precisely when it is not the last layer. -/
theorem MLP.newAux_spec (rng : Nat → ℚ) (total : Nat) :
    ∀ (nouts : List Nat) (i ctr : Nat) (s : List ValueData) (inSize : Nat),
      ((MLP.newAux rng total i ctr s inSize nouts).2.2).length
          = nouts.length ∧
      ∀ j, j < nouts.length →
        ∀ m ∈ (((MLP.newAux rng total i ctr s inSize nouts).2.2).getD j
            (Layer.mk [])).neurons,
          m.activation = decide (i + j < total - 1) := by
  intro nouts
  induction nouts with
  | nil =>
      intro i ctr s inSize
      exact ⟨rfl, by intro j hj; simp at hj⟩
  | cons nout rest ih =>
      intro i ctr s inSize
      rcases hL : Layer.new rng ctr s inSize nout (decide (i < total - 1))
        with ⟨c2, s2, layer⟩
      rcases hM : MLP.newAux rng total (i + 1) c2 s2 nout rest
        with ⟨c3, s3, layers⟩
      have hunf : MLP.newAux rng total i ctr s inSize (nout :: rest)
          = (c3, s3, layer :: layers) := by
        simp only [MLP.newAux, hL, hM]
      rw [hunf]
      have hrec := ih (i + 1) c2 s2 nout
      rw [hM] at hrec
      refine ⟨by simp [hrec.1], ?_⟩
      intro j hj m hm
      cases j with
      | zero =>
          have h0 : layer
              = (Layer.new rng ctr s inSize nout (decide (i < total - 1))).2.2 := by
            rw [hL]
          rcases hA : Layer.newAux rng nout ctr s inSize (decide (i < total - 1))
            with ⟨cx, sx, ns⟩
          rw [h0] at hm
          simp only [Layer.new, hA] at hm
          simp at hm
          have h := Layer.newAux_activation rng nout ctr s inSize
            (decide (i < total - 1)) m
          rw [hA] at h
          simpa using h hm
      | succ j =>
          simp only [List.length_cons, Nat.succ_lt_succ_iff] at hj
          have h := hrec.2 j hj m (by simpa [List.getD] using hm)
          rw [show i + (j + 1) = (i + 1) + j by omega]
          exact h

/-- C9: in any network built by `MLP::new` with at least one layer, the
number of layers equals the number of requested widths, a neuron of layer
`j` carries the ReLU flag exactly when `j` is not the last layer, and
`Neuron::forward` appends a `Relu` node over the affine output exactly
when that flag is set (otherwise it returns the affine output node
unchanged). -/
theorem mlp_last_layer_linear (rng : Nat → ℚ) (ctr : Nat)
    (s : List ValueData) (nin : Nat) (nouts : List Nat) (_hne : nouts ≠ []) :
    ((MLP.new rng ctr s nin nouts).2.2).layers.length = nouts.length ∧
    (∀ j, j < nouts.length →
      ∀ m ∈ (((MLP.new rng ctr s nin nouts).2.2).layers.getD j
          (Layer.mk [])).neurons,
        (m.activation = true ↔ j < nouts.length - 1)) ∧
    (∀ (s2 : List ValueData) (m : Neuron) (x : List Nat),
      m.activation = true →
      Neuron.forward s2 m x
        = Value.relu (Neuron.affine s2 m x).1 (Neuron.affine s2 m x).2) ∧
    (∀ (s2 : List ValueData) (m : Neuron) (x : List Nat),
      m.activation = false →
      Neuron.forward s2 m x = Neuron.affine s2 m x) ∧
    (∀ (s2 : List ValueData) (a : Nat),
      Value.relu s2 a
        = (s2 ++ [⟨max (getNode s2 a).data 0, 0, some Op.relu, some [a]⟩],
           s2.length)) := by
  have hspec := MLP.newAux_spec rng nouts.length nouts 0 ctr s nin
  rcases hM : MLP.newAux rng nouts.length 0 ctr s nin nouts
    with ⟨c2, s2, layers⟩
  rw [hM] at hspec
  have hnew : (MLP.new rng ctr s nin nouts).2.2 = ⟨layers⟩ := by
    rw [MLP.new, hM]
  rw [hnew]
  refine ⟨hspec.1, ?_, ?_, ?_, fun s2 a => rfl⟩
  · intro j hj m hm
    have h := hspec.2 j hj m (by simpa using hm)
    rw [h]
    simp
  · intro s2 m x h
    rcases ha : Neuron.affine s2 m x with ⟨sa, aa⟩
    simp [Neuron.forward, ha, h]
  · intro s2 m x h
    rcases ha : Neuron.affine s2 m x with ⟨sa, aa⟩
    simp [Neuron.forward, ha, h]

/-- Witness for C9 on a concrete 2-input, widths [2, 1] network. -/
theorem mlp_last_layer_linear_witness :
    ((MLP.new rng0 0 [] 2 [2, 1]).2.2).layers.length
        = ([2, 1] : List Nat).length ∧
    (∀ j, j < ([2, 1] : List Nat).length →
      ∀ m ∈ (((MLP.new rng0 0 [] 2 [2, 1]).2.2).layers.getD j
          (Layer.mk [])).neurons,
        (m.activation = true ↔ j < ([2, 1] : List Nat).length - 1)) ∧
    (∀ (s2 : List ValueData) (m : Neuron) (x : List Nat),
      m.activation = true →
      Neuron.forward s2 m x
        = Value.relu (Neuron.affine s2 m x).1 (Neuron.affine s2 m x).2) ∧
    (∀ (s2 : List ValueData) (m : Neuron) (x : List Nat),
      m.activation = false →
      Neuron.forward s2 m x = Neuron.affine s2 m x) ∧
    (∀ (s2 : List ValueData) (a : Nat),
      Value.relu s2 a
        = (s2 ++ [⟨max (getNode s2 a).data 0, 0, some Op.relu, some [a]⟩],
           s2.length)) :=
  mlp_last_layer_linear rng0 0 [] 2 [2, 1] (by decide)

/-- Witness for C6 on the two-leaf arena (a = node 0 value 7, b = node 1
value 4). -/
theorem sub_structure_witness :
    Value.sub pairStore 0 1 =
      (let sm := Value.mulScalar pairStore 1 (-1)
       Value.add sm.1 0 sm.2) ∧
    Value.sub pairStore 0 1 =
      (pairStore ++
        [⟨-1, 0, none, none⟩,
         ⟨(getNode pairStore 1).data * -1, 0, some Op.mul,
          some [1, pairStore.length]⟩,
         ⟨(getNode pairStore 0).data + (getNode pairStore 1).data * -1, 0,
          some Op.add, some [0, pairStore.length + 1]⟩],
       pairStore.length + 2) :=
  sub_structure pairStore 0 1 (by decide) (by decide)

end Micrograd
